import Mathlib

/-!
Verification of the dt-server temporal reconstruction engine (src/main.go).

The repository keeps a mutable `users` store together with an append-only
`events` log.  Each mutation records an invertible pair of JSON patches
(`update` = forward, `rollback` = inverse) computed by the external
`wI2L/jsondiff` library, and `getPatched` replays a chain of patches (applied
by the external `evanphx/json-patch` library) over the serialized current
entity.

Modelling conventions:
* JSON trees are the inductive `JValue`.  The repository's entities (`User`,
  `Backpack`) contain no arrays, so arrays are not modelled.  JSON objects are
  modelled as key-ordered association lists (`JFields`); a Go `map` is
  unordered and `encoding/json` marshals maps with sorted keys, so the sorted
  list is the canonical representation of an object and `JValue` equality is
  JSON value equality.  The predicate `JValue.canonical` states that every
  object layer is strictly key-sorted; serialization always produces canonical
  values.
* The diff computation (`jsondiff.CompareJSONOpts`) and patch application
  (`jsonpatch.Patch.Apply`) live in external libraries.  They are modelled
  from the spec: the diff is a structural comparison producing add / remove /
  replace operations (spec 4.1; minimality is not required), application is
  the standard RFC 6902 semantics over the modelled operation set (spec 4.4;
  move / copy / test are never produced by the modelled diff and are omitted).
* Go byte strings are modelled as `List Char` where character-level work is
  needed (all concrete data is ASCII); the out-of-range string slice
  `op.Path[1:4]` of `skipAndConvert` is modelled by `goSlice`, whose failure
  (a Go runtime panic) is the `GoR.panics` outcome.
* `time.Now` is an arbitrary start instant `t0 : Nat` (seconds); the program
  only ever adds 24h = 86400 to its single `global` clock variable.
-/

namespace DT

/-! ## JSON value model -/

mutual

inductive JValue where
  | null
  | bool (b : Bool)
  | num (n : Int)
  | str (s : String)
  | obj (fields : JFields)
deriving DecidableEq

inductive JFields where
  | fnil
  | fcons (key : String) (value : JValue) (rest : JFields)
deriving DecidableEq

end

/-- Byte-wise strict order on character lists (Go compares strings
byte-wise; all data here is ASCII, so character order and byte order
coincide). -/
def charsLt : List Char → List Char → Bool
  | [], [] => false
  | [], _ :: _ => true
  | _ :: _, [] => false
  | a :: as, b :: bs =>
    if a < b then true
    else if b < a then false
    else charsLt as bs

/-- Strict order on strings, via `charsLt`. -/
def strLt (a b : String) : Bool := charsLt a.data b.data

theorem charsLt_irrefl (a : List Char) : charsLt a a = false := by
  match a with
  | [] => rfl
  | c :: cs => simp [charsLt, charsLt_irrefl cs]

theorem charsLt_asymm : ∀ a b : List Char, charsLt a b = true → charsLt b a = false
  | [], [], h => by simp [charsLt] at h
  | [], _ :: _, _ => rfl
  | _ :: _, [], h => by simp [charsLt] at h
  | c :: cs, d :: ds, h => by
    by_cases h1 : c < d
    · have h2 : ¬ d < c := lt_asymm h1
      simp [charsLt, h1, h2]
    · by_cases h2 : d < c
      · simp [charsLt, h1, h2] at h
      · simp only [charsLt, if_neg h1, if_neg h2] at h ⊢
        exact charsLt_asymm cs ds h

theorem charsLt_conn : ∀ a b : List Char, charsLt a b = false → charsLt b a = false → a = b
  | [], [], _, _ => rfl
  | [], _ :: _, h1, _ => by simp [charsLt] at h1
  | _ :: _, [], _, h2 => by simp [charsLt] at h2
  | c :: cs, d :: ds, h1, h2 => by
    by_cases hcd : c < d
    · simp [charsLt, hcd] at h1
    · by_cases hdc : d < c
      · simp [charsLt, hdc] at h2
      · have hc : c = d := le_antisymm (not_lt.mp hdc) (not_lt.mp hcd)
        subst hc
        simp only [charsLt, if_neg hcd, if_neg hdc] at h1 h2
        rw [charsLt_conn cs ds h1 h2]

theorem charsLt_trans : ∀ a b c : List Char,
    charsLt a b = true → charsLt b c = true → charsLt a c = true
  | [], [], _, h1, _ => by simp [charsLt] at h1
  | _ :: _, [], _, h1, _ => by simp [charsLt] at h1
  | [], _ :: _, [], _, h2 => by simp [charsLt] at h2
  | [], _ :: _, _ :: _, _, _ => rfl
  | a :: as, b :: bs, [], _, h2 => by simp [charsLt] at h2
  | a :: as, b :: bs, c :: cs, h1, h2 => by
    by_cases hab : a < b
    · by_cases hbc : b < c
      · have hac : a < c := lt_trans hab hbc
        simp [charsLt, hac]
      · by_cases hcb : c < b
        · simp [charsLt, hbc, hcb] at h2
        · have hb : b = c := le_antisymm (not_lt.mp hcb) (not_lt.mp hbc)
          subst hb
          simp [charsLt, hab]
    · by_cases hba : b < a
      · simp [charsLt, hab, hba] at h1
      · have ha : a = b := le_antisymm (not_lt.mp hba) (not_lt.mp hab)
        subst ha
        simp only [charsLt, if_neg hab, if_neg hba] at h1
        by_cases hbc : a < c
        · simp [charsLt, hbc]
        · by_cases hcb : c < a
          · simp [charsLt, hbc, hcb] at h2
          · simp only [charsLt, if_neg hbc, if_neg hcb] at h2 ⊢
            exact charsLt_trans as bs cs h1 h2

theorem strLt_irrefl (a : String) : strLt a a = false := charsLt_irrefl a.data

theorem strLt_asymm {a b : String} (h : strLt a b = true) : strLt b a = false :=
  charsLt_asymm a.data b.data h

theorem strLt_conn {a b : String} (h1 : strLt a b = false) (h2 : strLt b a = false) :
    a = b := by
  have := charsLt_conn a.data b.data h1 h2
  cases a; cases b; exact congrArg String.mk this

theorem strLt_trans {a b c : String} (h1 : strLt a b = true) (h2 : strLt b c = true) :
    strLt a c = true := charsLt_trans a.data b.data c.data h1 h2

/-! ## Association-list operations on object fields -/

/-- Look up a key (first occurrence). -/
def JFields.findK : JFields → String → Option JValue
  | .fnil, _ => none
  | .fcons k2 v r, k => if k2 = k then some v else r.findK k

/-- Replace the value of an existing key (first occurrence); no-op when the
key is absent. -/
def JFields.setK : JFields → String → JValue → JFields
  | .fnil, _, _ => .fnil
  | .fcons k2 v r, k, w => if k2 = k then .fcons k2 w r else .fcons k2 v (r.setK k w)

/-- Remove a key (first occurrence). -/
def JFields.eraseK : JFields → String → JFields
  | .fnil, _ => .fnil
  | .fcons k2 v r, k => if k2 = k then r else .fcons k2 v (r.eraseK k)

/-- Ordered upsert: a Go `map` store followed by key-sorted marshaling. -/
def JFields.insertK : JFields → String → JValue → JFields
  | .fnil, k, w => .fcons k w .fnil
  | .fcons k2 v r, k, w =>
    if strLt k k2 then .fcons k w (.fcons k2 v r)
    else if k = k2 then .fcons k2 w r
    else .fcons k2 v (r.insertK k w)

def JFields.appF : JFields → JFields → JFields
  | .fnil, g => g
  | .fcons k v r, g => .fcons k v (r.appF g)

def JFields.hasKey (fs : JFields) (k : String) : Bool := (fs.findK k).isSome

/-- Membership of a value (used as the decreasing measure for recursion over
the values of an object). -/
def JFields.hasVal : JFields → JValue → Prop
  | .fnil, _ => False
  | .fcons _ v r, x => x = v ∨ r.hasVal x

/-- Key `k` is strictly below every key of the list. -/
def JFields.allGt (k : String) : JFields → Bool
  | .fnil => true
  | .fcons k2 _ r => strLt k k2 && allGt k r

/-- Keys strictly sorted (hence duplicate-free). -/
def JFields.sortedF : JFields → Bool
  | .fnil => true
  | .fcons k _ r => JFields.allGt k r && r.sortedF

mutual

/-- Canonical JSON value: every object layer is strictly key-sorted.  This is
the invariant of values produced by `encoding/json` serialization (object
keys are unique, and key order is not observable for JSON objects). -/
def JValue.canonical : JValue → Bool
  | .obj fs => fs.canonF
  | _ => true

def JFields.canonF : JFields → Bool
  | .fnil => true
  | .fcons k v r => v.canonical && JFields.allGt k r && r.canonF

end

theorem hasVal_size {fs : JFields} {v : JValue} (h : fs.hasVal v) :
    sizeOf v < sizeOf fs := by
  match fs with
  | .fnil => simp [JFields.hasVal] at h
  | .fcons k w r =>
    rcases h with h | h
    · subst h; simp; omega
    · have := hasVal_size h
      simp
      omega

theorem findK_hasVal {fs : JFields} {k : String} {v : JValue}
    (h : fs.findK k = some v) : fs.hasVal v := by
  match fs with
  | .fnil => simp [JFields.findK] at h
  | .fcons k2 w r =>
    simp only [JFields.findK] at h
    split at h
    · cases h; exact Or.inl rfl
    · exact Or.inr (findK_hasVal h)

theorem canonF_head {k : String} {v : JValue} {r : JFields}
    (h : (JFields.fcons k v r).canonF = true) :
    v.canonical = true ∧ JFields.allGt k r = true ∧ r.canonF = true := by
  simp only [JFields.canonF, Bool.and_eq_true] at h
  exact ⟨h.1.1, h.1.2, h.2⟩

theorem canonF_findK {fs : JFields} {k : String} {v : JValue}
    (hc : fs.canonF = true) (h : fs.findK k = some v) : v.canonical = true := by
  match fs with
  | .fnil => simp [JFields.findK] at h
  | .fcons k2 w r =>
    obtain ⟨h1, _, h3⟩ := canonF_head hc
    simp only [JFields.findK] at h
    split at h
    · cases h; exact h1
    · exact canonF_findK h3 h

theorem findK_none_of_allGt {fs : JFields} {k : String}
    (h : fs.allGt k = true) : fs.findK k = none := by
  match fs with
  | .fnil => rfl
  | .fcons k2 v r =>
    simp only [JFields.allGt, Bool.and_eq_true] at h
    have hne : k2 ≠ k := by
      intro he
      subst he
      simp [strLt_irrefl] at h
    simp only [JFields.findK, if_neg hne]
    exact findK_none_of_allGt h.2

theorem allGt_of_lt {fs : JFields} {j k : String}
    (hjk : strLt j k = true) (h : fs.allGt k = true) : fs.allGt j = true := by
  match fs with
  | .fnil => rfl
  | .fcons k2 v r =>
    simp only [JFields.allGt, Bool.and_eq_true] at h ⊢
    exact ⟨strLt_trans hjk h.1, allGt_of_lt hjk h.2⟩

theorem sortedF_head {k : String} {v : JValue} {r : JFields}
    (h : (JFields.fcons k v r).sortedF = true) :
    JFields.allGt k r = true ∧ r.sortedF = true := by
  simp only [JFields.sortedF, Bool.and_eq_true] at h
  exact h

theorem sortedF_of_canonF {fs : JFields} (h : fs.canonF = true) : fs.sortedF = true := by
  match fs with
  | .fnil => rfl
  | .fcons k v r =>
    obtain ⟨_, h2, h3⟩ := canonF_head h
    simp only [JFields.sortedF, Bool.and_eq_true]
    exact ⟨h2, sortedF_of_canonF h3⟩

theorem hasKey_head_false_of_sorted {k : String} {v : JValue} {r : JFields}
    (h : (JFields.fcons k v r).sortedF = true) : r.hasKey k = false := by
  obtain ⟨h1, _⟩ := sortedF_head h
  simp [JFields.hasKey, findK_none_of_allGt h1]

/-! basic find / set / erase / insert lemmas -/

theorem findK_setK_self {fs : JFields} {k : String} {va : JValue}
    (h : fs.findK k = some va) (w : JValue) : (fs.setK k w).findK k = some w := by
  match fs with
  | .fnil => simp [JFields.findK] at h
  | .fcons k2 v r =>
    simp only [JFields.findK] at h
    by_cases he : k2 = k
    · simp [JFields.setK, he, JFields.findK]
    · simp only [if_neg he] at h
      simp only [JFields.setK, if_neg he, JFields.findK, he]
      exact findK_setK_self h w

theorem setK_setK {fs : JFields} (k : String) (w1 w2 : JValue) :
    (fs.setK k w1).setK k w2 = fs.setK k w2 := by
  match fs with
  | .fnil => rfl
  | .fcons k2 v r =>
    by_cases he : k2 = k
    · simp [JFields.setK, he]
    · simp [JFields.setK, he, setK_setK]

theorem setK_self {fs : JFields} {k : String} {va : JValue}
    (h : fs.findK k = some va) : fs.setK k va = fs := by
  match fs with
  | .fnil => rfl
  | .fcons k2 v r =>
    simp only [JFields.findK] at h
    by_cases he : k2 = k
    · simp only [if_pos he] at h
      cases h
      simp [JFields.setK, he]
    · simp only [if_neg he] at h
      simp [JFields.setK, he, setK_self h]

theorem findK_insertK_self (fs : JFields) (k : String) (w : JValue) :
    (fs.insertK k w).findK k = some w := by
  match fs with
  | .fnil => simp [JFields.insertK, JFields.findK]
  | .fcons k2 v r =>
    by_cases h1 : strLt k k2 = true
    · simp [JFields.insertK, h1, JFields.findK]
    · by_cases h2 : k = k2
      · subst h2
        simp [JFields.insertK, h1, strLt_irrefl, JFields.findK]
      · have hne : k2 ≠ k := fun he => h2 he.symm
        simp [JFields.insertK, h1, h2, JFields.findK, hne, findK_insertK_self r k w]

theorem findK_insertK_ne (fs : JFields) {k k' : String} (hne : k ≠ k') (w : JValue) :
    (fs.insertK k w).findK k' = fs.findK k' := by
  match fs with
  | .fnil => simp [JFields.insertK, JFields.findK, hne]
  | .fcons k2 v r =>
    by_cases h1 : strLt k k2 = true
    · simp [JFields.insertK, h1, JFields.findK, hne]
    · by_cases h2 : k = k2
      · subst h2
        simp [JFields.insertK, h1, JFields.findK, hne]
      · simp only [JFields.insertK, if_neg h1, if_neg h2]
        by_cases h3 : k2 = k'
        · simp [JFields.findK, h3]
        · simp [JFields.findK, h3, findK_insertK_ne r hne w]

theorem allGt_insertK {fs : JFields} {j k : String} {w : JValue}
    (hjk : strLt j k = true) (h : fs.allGt j = true) :
    (fs.insertK k w).allGt j = true := by
  match fs with
  | .fnil => simp [JFields.insertK, JFields.allGt, hjk]
  | .fcons k2 v r =>
    simp only [JFields.allGt, Bool.and_eq_true] at h
    by_cases h1 : strLt k k2 = true
    · simp [JFields.insertK, h1, JFields.allGt, hjk, h.1, h.2]
    · by_cases h2 : k = k2
      · subst h2
        simp [JFields.insertK, h1, strLt_irrefl, JFields.allGt, h.1, h.2]
      · simp [JFields.insertK, h1, h2, JFields.allGt, h.1, allGt_insertK hjk h.2]

theorem sortedF_insertK {fs : JFields} (k : String) (w : JValue)
    (h : fs.sortedF = true) : (fs.insertK k w).sortedF = true := by
  match fs with
  | .fnil => simp [JFields.insertK, JFields.sortedF, JFields.allGt]
  | .fcons k2 v r =>
    obtain ⟨h1, h2⟩ := sortedF_head h
    by_cases hlt : strLt k k2 = true
    · simp only [JFields.insertK, if_pos hlt, JFields.sortedF, JFields.allGt,
        Bool.and_eq_true]
      exact ⟨⟨hlt, allGt_of_lt hlt h1⟩, h1, h2⟩
    · by_cases he : k = k2
      · subst he
        simp only [JFields.insertK, if_neg hlt, if_pos rfl, JFields.sortedF,
          Bool.and_eq_true]
        exact ⟨h1, h2⟩
      · have hk2k : strLt k2 k = true := by
          cases hlt2 : strLt k2 k
          · exact absurd (strLt_conn (by simpa using hlt) hlt2) he
          · rfl
        simp only [JFields.insertK, if_neg hlt, if_neg he, JFields.sortedF,
          Bool.and_eq_true]
        exact ⟨allGt_insertK hk2k h1, sortedF_insertK k w h2⟩

/-! ## Patch operations, diff and apply

Modelled from the spec: the diff computation lives in the external
`wI2L/jsondiff` library (`jsondiff.CompareJSONOpts` with the `Invertible`
option) and application in `evanphx/json-patch` (`Patch.Apply`); neither is
part of this repository.  Spec 4.1: the diff is a structural comparison
producing add / remove / replace operations (minimality is not required),
and spec 4.4 / RFC 6902 fix the application semantics: each operation path
must resolve against the current intermediate value, `add` upserts into an
object, `remove` and `replace` require the target to exist, and failure
aborts the whole application. -/

inductive JOp where
  | add (path : List String) (value : JValue)
  | remove (path : List String)
  | replace (path : List String) (value : JValue)
deriving DecidableEq

def JOp.path : JOp → List String
  | .add p _ => p
  | .remove p => p
  | .replace p _ => p

/-- Prefix an operation path with one more object key. -/
def pushKey (k : String) : JOp → JOp
  | .add p v => .add (k :: p) v
  | .remove p => .remove (k :: p)
  | .replace p v => .replace (k :: p) v

/-- Leaf (non-object) comparison: whole-value replace when different. -/
def diffLeaf (a b : JValue) : List JOp :=
  if a = b then [] else [.replace [] b]

/-- Operations adding the fields present only in the second object. -/
def diffAdd : JFields → JFields → List JOp
  | _, .fnil => []
  | fa, .fcons k vb r =>
    if fa.hasKey k then diffAdd fa r else .add [k] vb :: diffAdd fa r

-- `diffV` compares two values; `diffDel` emits the operations for fields of
-- the first object that were changed or removed.

mutual

def diffV : JValue → JValue → List JOp
  | .obj fa, .obj fb => diffDel fa fb ++ diffAdd fa fb
  | a, b => diffLeaf a b

def diffDel : JFields → JFields → List JOp
  | .fnil, _ => []
  | .fcons k va r, fb =>
    match fb.findK k with
    | none => .remove [k] :: diffDel r fb
    | some vb => (diffV va vb).map (pushKey k) ++ diffDel r fb

end

/-- RFC 6902 `add`: upsert at the final key, every intermediate key must
resolve; adding at the root replaces the whole document. -/
def addAt : JValue → List String → JValue → Option JValue
  | _, [], v => some v
  | .obj fs, [k], v => some (.obj (fs.insertK k v))
  | .obj fs, k :: k2 :: p, v =>
    match fs.findK k with
    | some child =>
      match addAt child (k2 :: p) v with
      | some c2 => some (.obj (fs.setK k c2))
      | none => none
    | none => none
  | _, _ :: _, _ => none

/-- RFC 6902 `remove`: the target member must exist. -/
def removeAt : JValue → List String → Option JValue
  | _, [] => none
  | .obj fs, [k] =>
    match fs.findK k with
    | some _ => some (.obj (fs.eraseK k))
    | none => none
  | .obj fs, k :: k2 :: p =>
    match fs.findK k with
    | some child =>
      match removeAt child (k2 :: p) with
      | some c2 => some (.obj (fs.setK k c2))
      | none => none
    | none => none
  | _, _ :: _ => none

/-- RFC 6902 `replace`: the target member must exist; replacing at the root
replaces the whole document. -/
def replaceAt : JValue → List String → JValue → Option JValue
  | _, [], w => some w
  | .obj fs, [k], w =>
    match fs.findK k with
    | some _ => some (.obj (fs.setK k w))
    | none => none
  | .obj fs, k :: k2 :: p, w =>
    match fs.findK k with
    | some child =>
      match replaceAt child (k2 :: p) w with
      | some c2 => some (.obj (fs.setK k c2))
      | none => none
    | none => none
  | _, _ :: _, _ => none

def applyOp (v : JValue) : JOp → Option JValue
  | .add p w => addAt v p w
  | .remove p => removeAt v p
  | .replace p w => replaceAt v p w

/-- Apply a whole patch in sequence; any failing operation aborts the apply
(no partial result). -/
def applyOps : List JOp → JValue → Option JValue
  | [], v => some v
  | op :: rest, v =>
    match applyOp v op with
    | some w => applyOps rest w
    | none => none

/-- The fields of `fa` that survive `diffDel fa fb`: keys absent from `fb`
are dropped, the others take the value from `fb`. -/
def keepF : JFields → JFields → JFields
  | .fnil, _ => .fnil
  | .fcons k _ r, fb =>
    match fb.findK k with
    | none => keepF r fb
    | some vb => .fcons k vb (keepF r fb)

/-- The effect of `diffAdd fa fb'` on an object: upsert every field of `fb'`
whose key is absent from `fa`. -/
def addMissing (fa : JFields) : JFields → JFields → JFields
  | .fnil, g => g
  | .fcons k vb r, g =>
    if fa.hasKey k then addMissing fa r g else addMissing fa r (g.insertK k vb)

/-- Operations whose path is nonempty for `add` and `remove` (the modelled
diff only emits root-level paths for `replace`). -/
def deepOk : JOp → Bool
  | .add [] _ => false
  | .remove [] => false
  | _ => true

theorem deepOk_pushKey (k : String) (op : JOp) : deepOk (pushKey k op) = true := by
  cases op <;> rfl

theorem diffAdd_deepOk : ∀ (fa fb : JFields) (op : JOp), op ∈ diffAdd fa fb →
    deepOk op = true := by
  intro fa fb op h
  match fb with
  | .fnil => simp [diffAdd] at h
  | .fcons k vb r =>
    simp only [diffAdd] at h
    split at h
    · exact diffAdd_deepOk fa r op h
    · rcases List.mem_cons.mp h with h | h
      · subst h; rfl
      · exact diffAdd_deepOk fa r op h

theorem diffDel_deepOk : ∀ (fa fb : JFields) (op : JOp), op ∈ diffDel fa fb →
    deepOk op = true := by
  intro fa fb op h
  match fa with
  | .fnil => simp [diffDel] at h
  | .fcons k va r =>
    simp only [diffDel] at h
    split at h
    · rcases List.mem_cons.mp h with h | h
      · subst h; rfl
      · exact diffDel_deepOk r fb op h
    · rcases List.mem_append.mp h with h | h
      · rcases List.mem_map.mp h with ⟨op2, _, h2⟩
        subst h2
        exact deepOk_pushKey _ op2
      · exact diffDel_deepOk r fb op h

theorem diffLeaf_deepOk (a b : JValue) (op : JOp) (h : op ∈ diffLeaf a b) :
    deepOk op = true := by
  unfold diffLeaf at h
  split at h
  · simp at h
  · rw [List.mem_singleton.mp h]
    rfl

theorem diffV_deepOk (a b : JValue) (op : JOp) (h : op ∈ diffV a b) :
    deepOk op = true := by
  cases a <;> cases b
  case obj.obj fa fb =>
    simp only [diffV] at h
    rcases List.mem_append.mp h with h | h
    · exact diffDel_deepOk fa fb op h
    · exact diffAdd_deepOk fa fb op h
  all_goals simp only [diffV] at h
  all_goals exact diffLeaf_deepOk _ _ op h

/-! ## Round-trip law of the diff engine -/

def JFields.canonVals : JFields → Bool
  | .fnil => true
  | .fcons _ v r => v.canonical && r.canonVals

theorem canonVals_head {k : String} {v : JValue} {r : JFields}
    (h : (JFields.fcons k v r).canonVals = true) :
    v.canonical = true ∧ r.canonVals = true := by
  simpa [JFields.canonVals, Bool.and_eq_true] using h

theorem canonVals_of_canonF {fs : JFields} (h : fs.canonF = true) :
    fs.canonVals = true := by
  match fs with
  | .fnil => rfl
  | .fcons k v r =>
    obtain ⟨h1, _, h3⟩ := canonF_head h
    simp [JFields.canonVals, h1, canonVals_of_canonF h3]

theorem findK_head (k : String) (va : JValue) (r : JFields) :
    (JFields.fcons k va r).findK k = some va := by
  simp [JFields.findK]

theorem setK_head (k : String) (va w : JValue) (r : JFields) :
    (JFields.fcons k va r).setK k w = .fcons k w r := by
  simp [JFields.setK]

theorem eraseK_head (k : String) (va : JValue) (r : JFields) :
    (JFields.fcons k va r).eraseK k = r := by
  simp [JFields.eraseK]

theorem hasKey_cons_of_tail {r : JFields} {k2 : String} (k : String) (va : JValue)
    (h : r.hasKey k2 = true) : (JFields.fcons k va r).hasKey k2 = true := by
  by_cases he : k = k2
  · simp [JFields.hasKey, JFields.findK, he]
  · simpa [JFields.hasKey, JFields.findK, he] using h

theorem findK_of_hasKey {fs : JFields} {k : String} (h : fs.hasKey k = true) :
    ∃ v, fs.findK k = some v := by
  unfold JFields.hasKey at h
  cases hf : fs.findK k
  · rw [hf] at h; simp at h
  · exact ⟨_, rfl⟩

theorem applyOps_append : ∀ (xs ys : List JOp) (v : JValue),
    applyOps (xs ++ ys) v = (applyOps xs v).bind (fun w => applyOps ys w) := by
  intro xs ys v
  match xs with
  | [] => simp [applyOps]
  | op :: rest =>
    simp only [List.cons_append, applyOps]
    cases applyOp v op
    · simp
    · simp [applyOps_append rest ys _]

theorem applyOp_pushKey {fs : JFields} {k : String} {va : JValue}
    (h : fs.findK k = some va) (op : JOp) (hop : deepOk op = true) :
    applyOp (.obj fs) (pushKey k op)
      = (applyOp va op).map (fun w => JValue.obj (fs.setK k w)) := by
  match op with
  | .add [] w => simp [deepOk] at hop
  | .add (k1 :: p) w =>
    simp only [pushKey, applyOp, addAt, h]
    cases addAt va (k1 :: p) w <;> simp
  | .remove [] => simp [deepOk] at hop
  | .remove (k1 :: p) =>
    simp only [pushKey, applyOp, removeAt, h]
    cases removeAt va (k1 :: p) <;> simp
  | .replace [] w =>
    simp [pushKey, applyOp, replaceAt, h]
  | .replace (k1 :: p) w =>
    simp only [pushKey, applyOp, replaceAt, h]
    cases replaceAt va (k1 :: p) w <;> simp

theorem applyOps_pushKey (k : String) :
    ∀ (ops : List JOp) (fs : JFields) (va : JValue),
      (∀ op ∈ ops, deepOk op = true) → fs.findK k = some va →
      applyOps (ops.map (pushKey k)) (.obj fs)
        = (applyOps ops va).map (fun w => JValue.obj (fs.setK k w)) := by
  intro ops
  match ops with
  | [] =>
    intro fs va _ h
    simp [applyOps, setK_self h]
  | op :: rest =>
    intro fs va hops h
    simp only [List.map_cons, applyOps]
    rw [applyOp_pushKey h op (hops op (by simp))]
    cases hres : applyOp va op with
    | none => simp
    | some w1 =>
      simp only [Option.map_some']
      rw [applyOps_pushKey k rest (fs.setK k w1) w1
        (fun o ho => hops o (by simp [ho])) (findK_setK_self h w1)]
      cases applyOps rest w1 <;> simp [setK_setK]

/-! lemmas about `appF` contexts -/

theorem appF_assoc (p q r : JFields) : (p.appF q).appF r = p.appF (q.appF r) := by
  match p with
  | .fnil => rfl
  | .fcons k v p2 => simp [JFields.appF, appF_assoc p2 q r]

theorem findK_appF {pre : JFields} {k : String} (h : pre.hasKey k = false)
    (fa : JFields) : (pre.appF fa).findK k = fa.findK k := by
  match pre with
  | .fnil => rfl
  | .fcons k2 v r =>
    have hne : k2 ≠ k := by
      intro he; subst he
      simp [JFields.hasKey, JFields.findK] at h
    have hr : r.hasKey k = false := by
      simpa [JFields.hasKey, JFields.findK, hne] using h
    simp only [JFields.appF, JFields.findK, if_neg hne]
    exact findK_appF hr fa

theorem eraseK_appF {pre : JFields} {k : String} (h : pre.hasKey k = false)
    (fa : JFields) : (pre.appF fa).eraseK k = pre.appF (fa.eraseK k) := by
  match pre with
  | .fnil => rfl
  | .fcons k2 v r =>
    have hne : k2 ≠ k := by
      intro he; subst he
      simp [JFields.hasKey, JFields.findK] at h
    have hr : r.hasKey k = false := by
      simpa [JFields.hasKey, JFields.findK, hne] using h
    simp [JFields.appF, JFields.eraseK, hne, eraseK_appF hr fa]

theorem setK_appF {pre : JFields} {k : String} (h : pre.hasKey k = false)
    (fa : JFields) (w : JValue) : (pre.appF fa).setK k w = pre.appF (fa.setK k w) := by
  match pre with
  | .fnil => rfl
  | .fcons k2 v r =>
    have hne : k2 ≠ k := by
      intro he; subst he
      simp [JFields.hasKey, JFields.findK] at h
    have hr : r.hasKey k = false := by
      simpa [JFields.hasKey, JFields.findK, hne] using h
    simp [JFields.appF, JFields.setK, hne, setK_appF hr fa w]

theorem hasKey_appF (p q : JFields) (k : String) :
    (p.appF q).hasKey k = (p.hasKey k || q.hasKey k) := by
  match p with
  | .fnil => simp [JFields.appF, JFields.hasKey, JFields.findK]
  | .fcons k2 v r =>
    by_cases he : k2 = k
    · simp [JFields.appF, JFields.hasKey, JFields.findK, he]
    · simpa [JFields.appF, JFields.hasKey, JFields.findK, he] using hasKey_appF r q k

/-- Core lemma: `diffDel fa fb` transforms the object `pre ++ fa` into
`pre ++ keepF fa fb`, for any prefix context `pre` disjoint from `fa`. -/
theorem del_ok : ∀ (fa pre fb : JFields),
    (∀ va vb, fa.hasVal va → va.canonical = true → vb.canonical = true →
        applyOps (diffV va vb) va = some vb) →
    fa.sortedF = true → fa.canonVals = true → fb.canonF = true →
    (∀ k, fa.hasKey k = true → pre.hasKey k = false) →
    applyOps (diffDel fa fb) (.obj (pre.appF fa))
      = some (.obj (pre.appF (keepF fa fb))) := by
  intro fa
  match fa with
  | .fnil =>
    intro pre fb _ _ _ _ _
    simp [diffDel, keepF, applyOps]
  | .fcons k va r =>
    intro pre fb IH hs hcv hfb hdis
    have hkey : (JFields.fcons k va r).hasKey k = true := by
      simp [JFields.hasKey, JFields.findK]
    have hpre := hdis k hkey
    obtain ⟨hgt, hs'⟩ := sortedF_head hs
    obtain ⟨hcva, hcvr⟩ := canonVals_head hcv
    have hdis' : ∀ k2, r.hasKey k2 = true → pre.hasKey k2 = false :=
      fun k2 hk2 => hdis k2 (hasKey_cons_of_tail k va hk2)
    have hfk : (pre.appF (.fcons k va r)).findK k = some va := by
      rw [findK_appF hpre, findK_head]
    have hrk : r.hasKey k = false := hasKey_head_false_of_sorted hs
    cases hfind : fb.findK k with
    | none =>
      simp only [diffDel, hfind, applyOps, applyOp, removeAt, hfk]
      rw [eraseK_appF hpre, eraseK_head]
      have := del_ok r pre fb (fun va2 vb2 hv => IH va2 vb2 (Or.inr hv)) hs' hcvr hfb hdis'
      rw [this]
      simp [keepF, hfind]
    | some vb =>
      simp only [diffDel, hfind]
      rw [applyOps_append]
      rw [applyOps_pushKey k (diffV va vb) _ va
        (fun op ho => diffV_deepOk va vb op ho) hfk]
      rw [IH va vb (Or.inl rfl) hcva (canonF_findK hfb hfind)]
      simp only [Option.map_some', Option.some_bind]
      rw [setK_appF hpre, setK_head]
      have hsplit : pre.appF (.fcons k vb r) = (pre.appF (.fcons k vb .fnil)).appF r := by
        rw [appF_assoc]
        rfl
      rw [hsplit]
      have hdis2 : ∀ k2, r.hasKey k2 = true →
          (pre.appF (.fcons k vb .fnil)).hasKey k2 = false := by
        intro k2 hk2
        rw [hasKey_appF]
        have hne : k ≠ k2 := by
          intro he; subst he; rw [hrk] at hk2; exact Bool.noConfusion hk2
        have h2 : (JFields.fcons k vb .fnil).hasKey k2 = false := by
          simp [JFields.hasKey, JFields.findK, hne]
        rw [hdis' k2 hk2, h2]
        rfl
      have := del_ok r (pre.appF (.fcons k vb .fnil)) fb
        (fun va2 vb2 hv => IH va2 vb2 (Or.inr hv)) hs' hcvr hfb hdis2
      rw [this, appF_assoc]
      simp [JFields.appF, keepF, hfind]

theorem applyOps_diffAdd : ∀ (fb fa g : JFields),
    applyOps (diffAdd fa fb) (.obj g) = some (.obj (addMissing fa fb g)) := by
  intro fb
  match fb with
  | .fnil =>
    intro fa g
    simp [diffAdd, addMissing, applyOps]
  | .fcons k vb r =>
    intro fa g
    cases hk : fa.hasKey k with
    | true =>
      simp only [diffAdd, addMissing, hk, if_true]
      exact applyOps_diffAdd r fa g
    | false =>
      simp only [diffAdd, addMissing, hk, Bool.false_eq_true, if_false, applyOps,
        applyOp, addAt]
      exact applyOps_diffAdd r fa (g.insertK k vb)

theorem findK_addMissing_in : ∀ (fb fa g : JFields) (k : String),
    fa.hasKey k = true → (addMissing fa fb g).findK k = g.findK k := by
  intro fb
  match fb with
  | .fnil => intro fa g k _; rfl
  | .fcons k2 vb2 r =>
    intro fa g k hk
    cases hk2 : fa.hasKey k2 with
    | true =>
      simp only [addMissing, hk2, if_true]
      exact findK_addMissing_in r fa g k hk
    | false =>
      have hne : k2 ≠ k := by
        intro he; subst he; rw [hk] at hk2; exact Bool.noConfusion hk2
      simp only [addMissing, hk2, Bool.false_eq_true, if_false]
      rw [findK_addMissing_in r fa _ k hk, findK_insertK_ne g hne vb2]

theorem findK_addMissing_out : ∀ (fb fa g : JFields) (k : String),
    fb.sortedF = true → fa.hasKey k = false →
    (addMissing fa fb g).findK k
      = match fb.findK k with
        | some vb => some vb
        | none => g.findK k := by
  intro fb
  match fb with
  | .fnil => intro fa g k _ _; simp [addMissing, JFields.findK]
  | .fcons k2 vb2 r =>
    intro fa g k hsb hk
    obtain ⟨hgt, hsb'⟩ := sortedF_head hsb
    cases hk2 : fa.hasKey k2 with
    | true =>
      have hne : k2 ≠ k := by
        intro he; subst he; rw [hk] at hk2; exact Bool.noConfusion hk2
      simp only [addMissing, hk2, if_true, JFields.findK, if_neg hne]
      exact findK_addMissing_out r fa g k hsb' hk
    | false =>
      simp only [addMissing, hk2, Bool.false_eq_true, if_false]
      rw [findK_addMissing_out r fa _ k hsb' hk]
      by_cases he : k2 = k
      · subst he
        rw [findK_none_of_allGt hgt]
        simp [JFields.findK, findK_insertK_self]
      · simp only [JFields.findK, if_neg he]
        cases r.findK k
        · simp [findK_insertK_ne g (fun h2 => he h2) vb2]
        · simp

theorem sortedF_addMissing : ∀ (fb fa g : JFields), g.sortedF = true →
    (addMissing fa fb g).sortedF = true := by
  intro fb
  match fb with
  | .fnil => intro fa g hg; exact hg
  | .fcons k vb r =>
    intro fa g hg
    cases hk : fa.hasKey k with
    | true =>
      simp only [addMissing, hk, if_true]
      exact sortedF_addMissing r fa g hg
    | false =>
      simp only [addMissing, hk, Bool.false_eq_true, if_false]
      exact sortedF_addMissing r fa _ (sortedF_insertK k vb hg)

theorem allGt_keepF {r : JFields} {k : String} (fb : JFields) (h : r.allGt k = true) :
    (keepF r fb).allGt k = true := by
  match r with
  | .fnil => rfl
  | .fcons k2 v r2 =>
    simp only [JFields.allGt, Bool.and_eq_true] at h
    cases hf : fb.findK k2
    · simp only [keepF, hf]
      exact allGt_keepF fb h.2
    · simp only [keepF, hf, JFields.allGt, Bool.and_eq_true]
      exact ⟨h.1, allGt_keepF fb h.2⟩

theorem sortedF_keepF {fa : JFields} (fb : JFields) (h : fa.sortedF = true) :
    (keepF fa fb).sortedF = true := by
  match fa with
  | .fnil => rfl
  | .fcons k va r =>
    obtain ⟨hgt, hs⟩ := sortedF_head h
    cases hf : fb.findK k
    · simp only [keepF, hf]
      exact sortedF_keepF fb hs
    · simp only [keepF, hf, JFields.sortedF, Bool.and_eq_true]
      exact ⟨allGt_keepF fb hgt, sortedF_keepF fb hs⟩

theorem findK_keepF {fa : JFields} (fb : JFields) (h : fa.sortedF = true) (k : String) :
    (keepF fa fb).findK k
      = match fa.findK k with
        | some _ => fb.findK k
        | none => none := by
  match fa with
  | .fnil => simp [keepF, JFields.findK]
  | .fcons k2 va r =>
    obtain ⟨hgt, hs⟩ := sortedF_head h
    by_cases he : k2 = k
    · subst he
      have hr : r.findK k2 = none := findK_none_of_allGt hgt
      cases hf : fb.findK k2
      · simp only [keepF, hf]
        rw [findK_keepF fb hs k2, hr]
        simp [JFields.findK]
      · simp [keepF, hf, JFields.findK]
    · cases hf : fb.findK k2
      · simp only [keepF, hf]
        rw [findK_keepF fb hs k]
        simp [JFields.findK, he]
      · simp only [keepF, hf, JFields.findK, if_neg he]
        exact findK_keepF fb hs k

/-- Strictly-sorted association lists with the same lookup function are
equal. -/
theorem sortedF_ext : ∀ (g h : JFields), g.sortedF = true → h.sortedF = true →
    (∀ k, g.findK k = h.findK k) → g = h := by
  intro g h
  match g, h with
  | .fnil, .fnil => intro _ _ _; rfl
  | .fnil, .fcons k w s =>
    intro _ _ hext
    have := hext k
    simp [JFields.findK] at this
  | .fcons k v r, .fnil =>
    intro _ _ hext
    have := hext k
    simp [JFields.findK] at this
  | .fcons k v r, .fcons k2 w s =>
    intro hg hh hext
    obtain ⟨hg1, hg2⟩ := sortedF_head hg
    obtain ⟨hh1, hh2⟩ := sortedF_head hh
    have hk : k = k2 := by
      cases hlt : strLt k k2 with
      | true =>
        exfalso
        have hne : k2 ≠ k := by
          intro he; subst he; rw [strLt_irrefl] at hlt; exact Bool.noConfusion hlt
        have h1 : (JFields.fcons k2 w s).findK k = none := by
          simp only [JFields.findK, if_neg hne]
          exact findK_none_of_allGt (allGt_of_lt hlt hh1)
        have h2 := hext k
        rw [h1] at h2
        simp [JFields.findK] at h2
      | false =>
        cases hlt2 : strLt k2 k with
        | true =>
          exfalso
          have hne : k ≠ k2 := by
            intro he; subst he; rw [strLt_irrefl] at hlt2; exact Bool.noConfusion hlt2
          have h1 : (JFields.fcons k v r).findK k2 = none := by
            simp only [JFields.findK, if_neg hne]
            exact findK_none_of_allGt (allGt_of_lt hlt2 hg1)
          have h2 := hext k2
          rw [h1] at h2
          simp [JFields.findK] at h2
        | false => exact strLt_conn hlt hlt2
    subst hk
    have hv : v = w := by
      have := hext k
      simpa [JFields.findK] using this
    subst hv
    have hrs : ∀ k', r.findK k' = s.findK k' := by
      intro k'
      by_cases he : k = k'
      · subst he
        rw [findK_none_of_allGt hg1, findK_none_of_allGt hh1]
      · have := hext k'
        simpa [JFields.findK, he] using this
    rw [sortedF_ext r s hg2 hh2 hrs]

theorem addMissing_keepF (fa fb : JFields) (ha : fa.sortedF = true)
    (hb : fb.sortedF = true) : addMissing fa fb (keepF fa fb) = fb := by
  apply sortedF_ext _ _ (sortedF_addMissing fb fa _ (sortedF_keepF fb ha)) hb
  intro k
  cases hk : fa.hasKey k with
  | true =>
    rw [findK_addMissing_in fb fa _ k hk, findK_keepF fb ha k]
    obtain ⟨v, hv⟩ := findK_of_hasKey hk
    rw [hv]
  | false =>
    rw [findK_addMissing_out fb fa _ k hb hk]
    cases hfb : fb.findK k
    · rw [findK_keepF fb ha k]
      cases hfa : fa.findK k <;> simp [hfb]
    · simp

theorem diffLeaf_rt (a b : JValue) : applyOps (diffLeaf a b) a = some b := by
  unfold diffLeaf
  split
  · next h => simp [applyOps, h]
  · simp [applyOps, applyOp, replaceAt]

theorem diffV_roundtrip_aux : ∀ (n : Nat) (a b : JValue), sizeOf a ≤ n →
    a.canonical = true → b.canonical = true → applyOps (diffV a b) a = some b := by
  intro n
  induction n with
  | zero =>
    intro a b hle _ _
    exfalso
    cases a <;> simp at hle
  | succ n ihn =>
    intro a b hle ha hb
    cases a with
    | obj fa =>
      cases b with
      | obj fb =>
        simp only [JValue.canonical] at ha hb
        have hsa : fa.sortedF = true := sortedF_of_canonF ha
        have hsb : fb.sortedF = true := sortedF_of_canonF hb
        have hsz : sizeOf fa ≤ n := by
          simp at hle
          omega
        simp only [diffV]
        rw [applyOps_append]
        have hdel := del_ok fa .fnil fb
          (fun va vb hv hca hcb =>
            ihn va vb (le_trans (Nat.le_of_lt (hasVal_size hv)) hsz) hca hcb)
          hsa (canonVals_of_canonF ha) hb (fun k _ => rfl)
        have e1 : JFields.appF .fnil fa = fa := rfl
        have e2 : JFields.appF .fnil (keepF fa fb) = keepF fa fb := rfl
        rw [e1, e2] at hdel
        rw [hdel]
        simp only [Option.some_bind]
        rw [applyOps_diffAdd fb fa (keepF fa fb), addMissing_keepF fa fb hsa hsb]
      | null => simp only [diffV]; exact diffLeaf_rt _ _
      | bool c => simp only [diffV]; exact diffLeaf_rt _ _
      | num m => simp only [diffV]; exact diffLeaf_rt _ _
      | str s => simp only [diffV]; exact diffLeaf_rt _ _
    | null =>
      cases b <;> (simp only [diffV]; exact diffLeaf_rt _ _)
    | bool c =>
      cases b <;> (simp only [diffV]; exact diffLeaf_rt _ _)
    | num m =>
      cases b <;> (simp only [diffV]; exact diffLeaf_rt _ _)
    | str s =>
      cases b <;> (simp only [diffV]; exact diffLeaf_rt _ _)

/-- Round-trip law: the patch produced by the modelled structural diff
transforms the first value into the second.  Canonicity (key-sorted
objects) is the invariant of serialized values. -/
theorem diffV_roundtrip (a b : JValue) (ha : a.canonical = true)
    (hb : b.canonical = true) : applyOps (diffV a b) a = some b :=
  diffV_roundtrip_aux (sizeOf a) a b le_rfl ha hb

/-! ## The program data model (src/main.go)

`User` and `Backpack` mirror the Go structs; `int`/`int64` fields are `Int`
(no arithmetic in the program can overflow 64 bits).  `Bag` is a nullable
pointer, hence `Option Backpack`.  Serialization mirrors `encoding/json`
with the `omitempty` tags of the source: a zero field (0, "", nil, false) is
omitted.  Object keys are emitted in canonical sorted order (see the note on
`JValue`). -/

structure Backpack where
  phone : String
  food : String
  gun : String
deriving DecidableEq

structure User where
  id : Int
  name : String
  age : Int
  bag : Option Backpack
  isAdult : Bool
deriving DecidableEq

/-- Emit a field only when its `omitempty` condition holds. -/
def optF (k : String) (c : Prop) [Decidable c] (v : JValue) (r : JFields) : JFields :=
  if c then .fcons k v r else r

def bagFields (b : Backpack) : JFields :=
  optF "food" (b.food ≠ "") (.str b.food)
    (optF "gun" (b.gun ≠ "") (.str b.gun)
      (optF "phone" (b.phone ≠ "") (.str b.phone) .fnil))

def bagF : Option Backpack → JFields → JFields
  | none, r => r
  | some b, r => .fcons "bag" (.obj (bagFields b)) r

def userFields (u : User) : JFields :=
  optF "age" (u.age ≠ 0) (.num u.age)
    (bagF u.bag
      (optF "id" (u.id ≠ 0) (.num u.id)
        (optF "is_adult" (u.isAdult = true) (.bool true)
          (optF "name" (u.name ≠ "") (.str u.name) .fnil))))

/-- `json.Marshal` of a `*User` (a nil pointer marshals to `null` and is
handled at the call sites). -/
def serializeUser (u : User) : JValue := .obj (userFields u)

def readInt : JValue → Option Int
  | .num n => some n
  | _ => none

def readStr : JValue → Option String
  | .str s => some s
  | _ => none

def readBool : JValue → Option Bool
  | .bool b => some b
  | _ => none

def applyBagField (b : Backpack) (k : String) (v : JValue) : Option Backpack :=
  if k = "phone" then (readStr v).map (fun s => { b with phone := s })
  else if k = "food" then (readStr v).map (fun s => { b with food := s })
  else if k = "gun" then (readStr v).map (fun s => { b with gun := s })
  else some b

def unmarshalBagFields : JFields → Backpack → Option Backpack
  | .fnil, b => some b
  | .fcons k v r, b =>
    match applyBagField b k v with
    | some b2 => unmarshalBagFields r b2
    | none => none

def readBag : JValue → Option (Option Backpack)
  | .null => some none
  | .obj fs => (unmarshalBagFields fs ⟨"", "", ""⟩).map some
  | _ => none

def applyUserField (u : User) (k : String) (v : JValue) : Option User :=
  if k = "id" then (readInt v).map (fun n => { u with id := n })
  else if k = "name" then (readStr v).map (fun s => { u with name := s })
  else if k = "age" then (readInt v).map (fun n => { u with age := n })
  else if k = "bag" then (readBag v).map (fun b => { u with bag := b })
  else if k = "is_adult" then (readBool v).map (fun b => { u with isAdult := b })
  else some u

def unmarshalUserFields : JFields → User → Option User
  | .fnil, u => some u
  | .fcons k v r, u =>
    match applyUserField u k v with
    | some u2 => unmarshalUserFields r u2
    | none => none

def zeroUser : User := ⟨0, "", 0, none, false⟩

/-- `json.Unmarshal` into a fresh `&User{}`: a JSON `null` leaves the zero
value, an object sets the recognised fields (unknown keys are ignored, a
type mismatch is an error), anything else is an error. -/
def unmarshalUser : JValue → Option User
  | .null => some zeroUser
  | .obj fs => unmarshalUserFields fs zeroUser
  | _ => none

/-- Outcome of a Go computation: a value, a returned `error`, or a runtime
panic. -/
inductive GoR (α : Type) where
  | ok (val : α)
  | err (msg : String)
  | panics
deriving DecidableEq

/-- `Event` of src/main.go; `Rollback`/`Update` hold the `jsondiff.Patch`
values produced at append time (the `any`-typed fields only ever hold this
type, so `skipAndConvert`'s type assertion always succeeds).  `CreatedAt`
is seconds. -/
structure Event where
  id : Int
  createdAt : Nat
  initiator : String
  subject : String
  action : String
  rollback : List JOp
  update : List JOp
deriving DecidableEq

/-- The process-wide mutable state: the `users` map, the `events` slice and
the `global` clock variable initialised from `time.Now()`. -/
structure ServerState where
  users : List (Int × User)
  events : List Event
  global : Nat
deriving DecidableEq

/-- Go map lookup (`users[id]`). -/
def lookupU : List (Int × User) → Int → Option User
  | [], _ => none
  | (k, u) :: r, id => if k = id then some u else lookupU r id

/-- Go map store (`users[id] = u`). -/
def insertU : List (Int × User) → Int → User → List (Int × User)
  | [], id, u => [(id, u)]
  | (k, w) :: r, id, u => if k = id then (k, u) :: r else (k, w) :: insertU r id u

def RollbackType : String := "rollback"

def UpdateType : String := "update"

/-- `createPatch`: `jsondiff.CompareJSONOpts(before, after, Invertible())`
(modelled by the structural diff `diffV`). -/
def createPatch (before after : JValue) : List JOp := diffV before after

/-- `extractDiffs`: returns `(rollbackPatch, updatePatch)`; the inverse is a
second full comparison in the opposite direction.  `json.Marshal` of the
repository's values cannot fail, so the error paths are unreachable and the
result is total. -/
def extractDiffs (oldData newData : JValue) : List JOp × List JOp :=
  (createPatch newData oldData, createPatch oldData newData)

/-- `addEvent`: assigns id `len(events)+1`, advances the `global` clock by
24h once more than 5 events are stored, and appends.  Total (see
`extractDiffs`). -/
def addEvent (initiator subject action : String) (oldData newData : JValue)
    (s : ServerState) : ServerState :=
  let d := extractDiffs oldData newData
  let id : Int := (s.events.length : Int) + 1
  let g : Nat := if s.events.length > 5 then s.global + 86400 else s.global
  let ev : Event := ⟨id, g, initiator, subject, action, d.1, d.2⟩
  { s with events := s.events ++ [ev], global := g }

def getUser (id : Int) (s : ServerState) : GoR User :=
  match lookupU s.users id with
  | some u => .ok u
  | none => .err "user with this id not exist"

/-- `getEvents`: `if int(id) <= len(events)-1 { return events[id:], nil }`.
A negative `id` passes the bound check and the Go slice expression
`events[id:]` then panics, which is the `panics` outcome. -/
def getEvents (id : Int) (events : List Event) : GoR (List Event) :=
  if id ≤ (events.length : Int) - 1 then
    if 0 ≤ id then .ok (events.drop id.toNat)
    else .panics
  else .err "event with this id not exist"

/-- JSON-pointer rendering of a decoded operation path (`op.Path` of the
source is this string; pointer escaping of `~` and `/` inside keys is not
modelled — no key of the repository's schema contains them). -/
def pathToChars : List String → List Char
  | [] => []
  | s :: rest => '/' :: (s.data ++ pathToChars rest)

/-- Go string slice `s[lo:hi]`: defined iff `lo ≤ hi ≤ len(s)`, otherwise a
runtime panic (modelled as `none`). -/
def goSlice (s : List Char) (lo hi : Nat) : Option (List Char) :=
  if lo ≤ hi ∧ hi ≤ s.length then some ((s.drop lo).take (hi - lo)) else none

/-- The bytes of the literal `"bag"` compared against the slice
(`len("/bag")` is 4). -/
def bagSeg : List Char := ['b', 'a', 'g']

/-- `skipAndConvert`: drops every operation with `op.Path[1:len("/bag")] ==
"bag"` and keeps the rest in order; the slice panics on paths shorter than
4 bytes.  (The final `json.Marshal` of the filtered patch cannot fail and
is the identity here.) -/
def skipAndConvert : List JOp → GoR (List JOp)
  | [] => .ok []
  | op :: rest =>
    match goSlice (pathToChars op.path) 1 4 with
    | none => .panics
    | some seg =>
      if seg = bagSeg then skipAndConvert rest
      else
        match skipAndConvert rest with
        | .ok l => .ok (op :: l)
        | .err m => .err m
        | .panics => .panics

/-- `convertToPatch`: `skipAndConvert` followed by `jsonpatch.DecodePatch`;
decoding the just-marshalled well-formed operation list always succeeds, so
it is the identity here. -/
def convertToPatch (value : List JOp) : GoR (List JOp) := skipAndConvert value

def getRequiredPatch (e : Event) (patchType : String) : GoR (List JOp) :=
  if patchType = RollbackType then .ok e.rollback
  else if patchType = UpdateType then .ok e.update
  else .err "wrong patch type"

/-- `applyPatch`: re-marshal + decode (identity on well-formed operation
lists) and `jsonpatch.Patch.Apply` (the RFC 6902 apply `applyOps`). -/
def applyPatch (entity : JValue) (p : List JOp) : GoR JValue :=
  match applyOps p entity with
  | some v => .ok v
  | none => .err "error in applying patches"

def patch (e : Event) (patchType : String) (source : JValue) : GoR JValue :=
  match getRequiredPatch e patchType with
  | .ok rp =>
    match convertToPatch rp with
    | .ok p => applyPatch source p
    | .err m => .err m
    | .panics => .panics
  | .err m => .err m
  | .panics => .panics

/-- The reconstruction loop of `getPatched`:
`for i := len(requiredEvents)-1; i >= 0; i--`, with
`source = serialized` on the first iteration (`i == len-1`).  The counter
argument is `i+1`; `source = none` models the initial empty byte slice
(`patch` on it fails inside `Apply` with an unmarshalling error, and
`json.Unmarshal` of it fails likewise — both unreachable because
`getEvents` never returns an empty slice). -/
def runDown (patchType : String) (evs : List Event) (serialized : JValue) :
    Nat → Option JValue → GoR (Option JValue)
  | 0, source => .ok source
  | i + 1, source =>
    let src := if i = evs.length - 1 then some serialized else source
    match evs[i]? with
    | none => .err "index out of range"
    | some e =>
      match src with
      | none => .err "unexpected end of JSON input"
      | some sv =>
        match patch e patchType sv with
        | .ok v2 => runDown patchType evs serialized i (some v2)
        | .err m => .err m
        | .panics => .panics

def getPatched (patchType : String) (eventID entityID : Int) (s : ServerState) :
    GoR User :=
  match getUser entityID s with
  | .ok u =>
    match getEvents eventID s.events with
    | .ok requiredEvents =>
      match runDown patchType requiredEvents (serializeUser u)
          requiredEvents.length none with
      | .ok none => .err "unexpected end of JSON input"
      | .ok (some v) =>
        match unmarshalUser v with
        | some patched => .ok patched
        | none => .err "json: cannot unmarshal"
      | .err m => .err m
      | .panics => .panics
    | .err m => .err m
    | .panics => .panics
  | .err m => .err m
  | .panics => .panics

/-- `updateUser`: reads the previous entity (nil pointer, i.e. JSON `null`,
when absent), stores the new one, and records the event.  `addEvent` is
total here, so the handler always replies "updated". -/
def updateUser (u : User) (s : ServerState) : ServerState :=
  let old := lookupU s.users u.id
  let s2 : ServerState := { s with users := insertU s.users u.id u }
  let oldJ : JValue :=
    match old with
    | some x => serializeUser x
    | none => JValue.null
  addEvent "admin" "some_user" "user_update" oldJ (serializeUser u) s2

/-- One `addEvent` request (the engine's `recordMutation` inputs). -/
structure AddReq where
  initiator : String
  subject : String
  action : String
  oldData : JValue
  newData : JValue
deriving DecidableEq

def runAdds : List AddReq → ServerState → ServerState
  | [], s => s
  | r :: rest, s =>
    runAdds rest (addEvent r.initiator r.subject r.action r.oldData r.newData s)

def initialUsers : List (Int × User) :=
  [(1, { id := 1, name := "John", age := 16,
         bag := some { phone := "Poco F3", food := "Big tasty", gun := "Beretta" },
         isAdult := false })]

/-- The process state at startup: John in the store, empty log, clock at
`t0`. -/
def mkInit (t0 : Nat) : ServerState :=
  { users := initialUsers, events := [], global := t0 }

/-- Sequential fold of `patch` over a chain, head first. -/
def foldEvents (patchType : String) : List Event → JValue → GoR JValue
  | [], src => .ok src
  | e :: rest, src =>
    match patch e patchType src with
    | .ok v2 => foldEvents patchType rest v2
    | .err m => .err m
    | .panics => .panics

/-- Forward reconstruction as the code actually behaves (the amended claim
C3): traverse the chain most-recent → least-recent applying each event's
forward (`update`) patch, starting the fold from the serialized current
entity — the same traversal as inverse reconstruction. -/
def amendedForwardReconstruct (eventID entityID : Int) (s : ServerState) :
    GoR User :=
  match getUser entityID s with
  | .ok u =>
    match getEvents eventID s.events with
    | .ok chain =>
      match chain with
      | [] => .err "unexpected end of JSON input"
      | _ :: _ =>
        match foldEvents UpdateType chain.reverse (serializeUser u) with
        | .ok v =>
          match unmarshalUser v with
          | some patched => .ok patched
          | none => .err "json: cannot unmarshal"
        | .err m => .err m
        | .panics => .panics
    | .err m => .err m
    | .panics => .panics
  | .err m => .err m
  | .panics => .panics

/-- Modelled from the spec (the procedure claim C3 describes, which is not
what the code does): process the chain least-recent → most-recent, applying
each event's forward patch in turn, starting the fold from the snapshot as
of the starting event (supplied explicitly) rather than from the current
entity. -/
def specForwardReconstruct (snapshot : User) (chain : List Event) : GoR User :=
  match foldEvents UpdateType chain (serializeUser snapshot) with
  | .ok v =>
    match unmarshalUser v with
    | some patched => .ok patched
    | none => .err "json: cannot unmarshal"
  | .err m => .err m
  | .panics => .panics

/-! ## Event log invariants (identifiers and timestamps) -/

/-- Identifiers assigned to `n` successive appends when `st` events are
already stored: `st+1, st+2, …, st+n`. -/
def idsFrom (st n : Nat) : List Int :=
  (List.range n).map (fun j => ((st + j : Nat) : Int) + 1)

theorem idsFrom_succ (st m : Nat) :
    idsFrom st (m + 1) = ((st : Int) + 1) :: idsFrom (st + 1) m := by
  have h1 : ((st + 0 : Nat) : Int) + 1 = (st : Int) + 1 := by omega
  simp only [idsFrom, List.range_succ_eq_map, List.map_cons, List.map_map, h1]
  congr 1
  apply List.map_congr_left
  intro j _
  simp only [Function.comp_apply]
  omega

theorem addEvent_events (i su a : String) (o n : JValue) (s : ServerState) :
    (addEvent i su a o n s).events
      = s.events ++ [⟨(s.events.length : Int) + 1,
          (if s.events.length > 5 then s.global + 86400 else s.global),
          i, su, a, diffV n o, diffV o n⟩] := by
  simp [addEvent, extractDiffs, createPatch]

theorem addEvent_length (i su a : String) (o n : JValue) (s : ServerState) :
    (addEvent i su a o n s).events.length = s.events.length + 1 := by
  simp [addEvent]

theorem runAdds_ids : ∀ (reqs : List AddReq) (s : ServerState),
    (runAdds reqs s).events.map (fun e => e.id)
      = s.events.map (fun e => e.id) ++ idsFrom s.events.length reqs.length := by
  intro reqs
  match reqs with
  | [] => intro s; simp [runAdds, idsFrom]
  | r :: rest =>
    intro s
    simp only [runAdds, List.length_cons]
    rw [runAdds_ids rest _]
    rw [idsFrom_succ, addEvent_length, addEvent_events]
    simp

/-- All stored timestamps are bounded by the clock, and never decrease along
the log. -/
def timesOk (s : ServerState) : Prop :=
  (∀ e ∈ s.events, e.createdAt ≤ s.global) ∧
    s.events.Pairwise (fun a b => a.createdAt ≤ b.createdAt)

theorem timesOk_addEvent (i su a : String) (o n : JValue) (s : ServerState)
    (h : timesOk s) : timesOk (addEvent i su a o n s) := by
  obtain ⟨h1, h2⟩ := h
  have hg : s.global ≤ (if s.events.length > 5 then s.global + 86400 else s.global) := by
    split <;> omega
  constructor
  · intro e he
    simp only [addEvent, List.mem_append, List.mem_singleton] at he
    rcases he with he | he
    · exact le_trans (h1 e he) (by simpa [addEvent] using hg)
    · subst he
      simp [addEvent]
  · simp only [addEvent]
    rw [List.pairwise_append]
    refine ⟨h2, List.pairwise_singleton _ _, ?_⟩
    intro e he ev hev
    simp only [List.mem_singleton] at hev
    subst hev
    exact le_trans (h1 e he) hg

theorem timesOk_runAdds : ∀ (reqs : List AddReq) (s : ServerState),
    timesOk s → timesOk (runAdds reqs s) := by
  intro reqs
  match reqs with
  | [] => intro s h; exact h
  | r :: rest =>
    intro s h
    exact timesOk_runAdds rest _ (timesOk_addEvent _ _ _ _ _ s h)

theorem idsFrom_drop : ∀ (t st n : Nat),
    (idsFrom st n).drop t = idsFrom (st + t) (n - t) := by
  intro t
  match t with
  | 0 => intro st n; simp
  | t + 1 =>
    intro st n
    match n with
    | 0 => simp [idsFrom]
    | m + 1 =>
      rw [idsFrom_succ]
      simp only [List.drop_succ_cons]
      rw [idsFrom_drop t (st + 1) m]
      congr 1
      all_goals omega

/-! ## Sanitizer facts -/

/-- C5 (amended): patches are stored unsanitized; sanitization instead
happens at application time — whenever `skipAndConvert` (the body of
`convertToPatch`, the only road to `applyPatch` during reconstruction)
succeeds, no operation of the resulting patch matches the excluded `/bag`
check, so no excluded-path operation is ever applied. -/
theorem skipAndConvert_removes_excluded :
    ∀ (ops out : List JOp), skipAndConvert ops = .ok out →
      ∀ op ∈ out, goSlice (pathToChars op.path) 1 4 ≠ some bagSeg := by
  intro ops
  match ops with
  | [] =>
    intro out h op hop
    simp only [skipAndConvert] at h
    cases h
    simp at hop
  | op0 :: rest =>
    intro out h op hop
    cases hsl : goSlice (pathToChars op0.path) 1 4 with
    | none =>
      simp only [skipAndConvert, hsl] at h
      cases h
    | some seg =>
      by_cases hb : seg = bagSeg
      · simp only [skipAndConvert, hsl, if_pos hb] at h
        exact skipAndConvert_removes_excluded rest out h op hop
      · simp only [skipAndConvert, hsl, if_neg hb] at h
        cases hrest : skipAndConvert rest with
        | ok l =>
          rw [hrest] at h
          cases h
          rcases List.mem_cons.mp hop with he | he
          · subst he
            rw [hsl]
            intro hcon
            exact hb (Option.some_injective _ hcon)
          · exact skipAndConvert_removes_excluded rest l hrest op he
        | err m => rw [hrest] at h; cases h
        | panics => rw [hrest] at h; cases h

/-- A patch none of whose operations starts with a key that substring-matches
the exclusion (first three bytes after the slash equal to `bag`, and paths at
least 4 bytes long) passes the sanitizer unchanged. -/
theorem skipAndConvert_id : ∀ (ops : List JOp),
    (∀ op ∈ ops, ∃ seg, goSlice (pathToChars op.path) 1 4 = some seg ∧
        seg ≠ bagSeg) →
    skipAndConvert ops = .ok ops := by
  intro ops
  match ops with
  | [] => intro _; rfl
  | op0 :: rest =>
    intro hall
    obtain ⟨seg, hsl, hne⟩ := hall op0 (by simp)
    simp only [skipAndConvert, hsl, if_neg hne]
    rw [skipAndConvert_id rest (fun o ho => hall o (by simp [ho]))]

/-! ## The reconstruction loop is a reverse fold from the current entity -/

def liftSome : GoR JValue → GoR (Option JValue)
  | .ok v => .ok (some v)
  | .err m => .err m
  | .panics => .panics

theorem runDown_take : ∀ (cnt : Nat) (evs : List Event) (pt : String)
    (ser src : JValue), cnt < evs.length →
    runDown pt evs ser cnt (some src)
      = liftSome (foldEvents pt ((evs.take cnt).reverse) src) := by
  intro cnt
  match cnt with
  | 0 =>
    intro evs pt ser src _
    simp [runDown, foldEvents, liftSome]
  | i + 1 =>
    intro evs pt ser src hlt
    have hne : i ≠ evs.length - 1 := by omega
    have hi : i < evs.length := by omega
    have hget : evs[i]? = some evs[i] := List.getElem?_eq_getElem hi
    simp only [runDown, if_neg hne, hget]
    have htake : (evs.take (i + 1)).reverse = evs[i] :: (evs.take i).reverse := by
      rw [List.take_succ, hget]
      simp
    rw [htake]
    simp only [foldEvents]
    cases patch evs[i] pt src with
    | ok v2 => exact runDown_take i evs pt ser v2 (by omega)
    | err m => rfl
    | panics => rfl

theorem runDown_full (evs : List Event) (pt : String) (ser : JValue)
    (hne : evs ≠ []) :
    runDown pt evs ser evs.length none = liftSome (foldEvents pt evs.reverse ser) := by
  obtain ⟨m, hm⟩ : ∃ m, evs.length = m + 1 := by
    cases hev : evs with
    | nil => exact absurd hev hne
    | cons e rest => exact ⟨rest.length, by simp⟩
  have hm1 : m < evs.length := by omega
  have hget : evs[m]? = some evs[m] := List.getElem?_eq_getElem hm1
  have hrev : evs.reverse = evs[m] :: (evs.take m).reverse := by
    conv_lhs => rw [show evs = evs.take (m + 1) from by rw [← hm, List.take_length]]
    rw [List.take_succ, hget]
    simp
  rw [hm, hrev]
  have hmeq : m = evs.length - 1 := by omega
  simp only [runDown, if_pos hmeq, hget, foldEvents]
  cases patch evs[m] pt ser with
  | ok v2 => exact runDown_take m evs pt ser v2 hm1
  | err m2 => rfl
  | panics => rfl

/-! ## Serialization facts for `User` -/

theorem bagFields_canonF (b : Backpack) : (bagFields b).canonF = true := by
  unfold bagFields optF
  split <;> split <;> split <;>
    simp_all [JFields.canonF, JValue.canonical, JFields.allGt, strLt, charsLt]

theorem userFields_canonF (u : User) : (userFields u).canonF = true := by
  unfold userFields optF bagF
  by_cases h1 : u.age = 0 <;> by_cases h2 : u.id = 0 <;>
    by_cases h3 : u.isAdult = true <;> by_cases h4 : u.name = "" <;>
    cases u.bag <;>
    simp_all [JFields.canonF, JValue.canonical, JFields.allGt, strLt, charsLt,
      bagFields_canonF]

theorem serializeUser_canonical (u : User) : (serializeUser u).canonical = true := by
  simp [serializeUser, JValue.canonical, userFields_canonF]

theorem unmarshalBagFields_serialize (b : Backpack) :
    unmarshalBagFields (bagFields b) ⟨"", "", ""⟩ = some b := by
  cases b with
  | mk p f g =>
    unfold bagFields optF
    by_cases hf : f = "" <;> by_cases hg : g = "" <;> by_cases hp : p = "" <;>
      simp_all [unmarshalBagFields, applyBagField, readStr]

theorem unmarshalUser_serialize (u : User) : unmarshalUser (serializeUser u) = some u := by
  cases u with
  | mk uid uname uage ubag uadult =>
    cases ubag with
    | none =>
      unfold serializeUser userFields optF bagF
      by_cases h1 : uage = 0 <;> by_cases h2 : uid = 0 <;> by_cases h3 : uname = "" <;>
        cases uadult <;>
        simp_all [unmarshalUser, unmarshalUserFields, applyUserField, readInt,
          readStr, readBool, readBag, zeroUser]
    | some b =>
      unfold serializeUser userFields optF bagF
      by_cases h1 : uage = 0 <;> by_cases h2 : uid = 0 <;> by_cases h3 : uname = "" <;>
        cases uadult <;>
        simp_all [unmarshalUser, unmarshalUserFields, applyUserField, readInt,
          readStr, readBool, readBag, zeroUser, unmarshalBagFields_serialize]

/-! key inventory of serialized users -/

theorem hasKey_optF {k2 : String} {c : Prop} [Decidable c] {v : JValue} {r : JFields}
    {k : String} (h : (optF k2 c v r).hasKey k = true) :
    k = k2 ∨ r.hasKey k = true := by
  unfold optF at h
  split at h
  · by_cases he : k2 = k
    · exact Or.inl he.symm
    · simp only [JFields.hasKey, JFields.findK, if_neg he] at h
      exact Or.inr h
  · exact Or.inr h

theorem hasKey_bagF {ob : Option Backpack} {r : JFields} {k : String}
    (h : (bagF ob r).hasKey k = true) : k = "bag" ∨ r.hasKey k = true := by
  cases ob with
  | none => exact Or.inr h
  | some b =>
    by_cases he : ("bag" : String) = k
    · exact Or.inl he.symm
    · simp only [bagF, JFields.hasKey, JFields.findK, if_neg he] at h
      exact Or.inr h

theorem userFields_keys {u : User} {k : String} (h : (userFields u).hasKey k = true) :
    k = "age" ∨ k = "bag" ∨ k = "id" ∨ k = "is_adult" ∨ k = "name" := by
  unfold userFields at h
  rcases hasKey_optF h with h | h
  · exact Or.inl h
  rcases hasKey_bagF h with h | h
  · exact Or.inr (Or.inl h)
  rcases hasKey_optF h with h | h
  · exact Or.inr (Or.inr (Or.inl h))
  rcases hasKey_optF h with h | h
  · exact Or.inr (Or.inr (Or.inr (Or.inl h)))
  rcases hasKey_optF h with h | h
  · exact Or.inr (Or.inr (Or.inr (Or.inr h)))
  · simp [JFields.hasKey, JFields.findK] at h

theorem findK_optF_ne {k2 : String} {c : Prop} [Decidable c] {v : JValue}
    {r : JFields} {k : String} (hne : k2 ≠ k) :
    (optF k2 c v r).findK k = r.findK k := by
  unfold optF
  split
  · simp [JFields.findK, hne]
  · rfl

theorem findK_bagF_ne {ob : Option Backpack} {r : JFields} {k : String}
    (hne : ("bag" : String) ≠ k) : (bagF ob r).findK k = r.findK k := by
  cases ob with
  | none => rfl
  | some b => simp [bagF, JFields.findK, hne]

theorem findK_optF_self {k2 : String} {c : Prop} [Decidable c] {v : JValue}
    {r : JFields} :
    (optF k2 c v r).findK k2 = if c then some v else r.findK k2 := by
  unfold optF
  split
  · next h => simp [JFields.findK, h]
  · next h => simp [h]

theorem findK_userFields_id (u : User) :
    (userFields u).findK "id" = if u.id = 0 then none else some (.num u.id) := by
  unfold userFields
  rw [findK_optF_ne (by decide), findK_bagF_ne (by decide), findK_optF_self]
  have hrest : (optF "is_adult" (u.isAdult = true) (.bool true)
      (optF "name" (u.name ≠ "") (.str u.name) .fnil)).findK "id" = none := by
    rw [findK_optF_ne (by decide), findK_optF_ne (by decide)]
    rfl
  by_cases h : u.id = 0
  · rw [if_pos h, if_neg (by simpa using h), hrest]
  · rw [if_neg h, if_pos (by simpa using h)]

theorem findK_userFields_bag (u : User) :
    (userFields u).findK "bag"
      = match u.bag with
        | none => none
        | some b => some (.obj (bagFields b)) := by
  unfold userFields
  rw [findK_optF_ne (by decide)]
  cases u.bag with
  | none =>
    simp only [bagF]
    rw [findK_optF_ne (by decide), findK_optF_ne (by decide),
      findK_optF_ne (by decide)]
    rfl
  | some b => simp [bagF, JFields.findK]

/-! ## Which fields an entity diff can touch -/

theorem findK_eq_none_of_not_hasKey {fs : JFields} {k : String}
    (h : fs.hasKey k = false) : fs.findK k = none := by
  unfold JFields.hasKey at h
  cases hf : fs.findK k
  · rfl
  · rw [hf] at h
    simp at h

theorem hasKey_head (k : String) (va : JValue) (r : JFields) :
    (JFields.fcons k va r).hasKey k = true := by
  simp [JFields.hasKey, JFields.findK]

theorem diffAdd_skip : ∀ (fb' fa : JFields),
    (∀ k, fb'.hasKey k = true → fa.hasKey k = true) → diffAdd fa fb' = [] := by
  intro fb'
  match fb' with
  | .fnil => intro fa _; rfl
  | .fcons k vb r =>
    intro fa hsub
    have hk := hsub k (hasKey_head k vb r)
    simp only [diffAdd, hk, if_true]
    exact diffAdd_skip r fa (fun k2 h2 => hsub k2 (hasKey_cons_of_tail k vb h2))

theorem diffDel_vanish : ∀ (fa' fb : JFields),
    (∀ k, fa'.hasKey k = true → fb.findK k = fa'.findK k) →
    fa'.sortedF = true → fa'.canonVals = true →
    (∀ v, fa'.hasVal v → v.canonical = true → diffV v v = []) →
    diffDel fa' fb = [] := by
  intro fa'
  match fa' with
  | .fnil => intro fb _ _ _ _; rfl
  | .fcons k va r =>
    intro fb hsame hs hcv hself
    obtain ⟨hgt, hs'⟩ := sortedF_head hs
    obtain ⟨hcva, hcvr⟩ := canonVals_head hcv
    have hrk : r.hasKey k = false := hasKey_head_false_of_sorted hs
    have hfind : fb.findK k = some va := by
      rw [hsame k (hasKey_head k va r), findK_head]
    simp only [diffDel, hfind]
    rw [hself va (Or.inl rfl) hcva]
    simp only [List.map_nil, List.nil_append]
    apply diffDel_vanish r fb _ hs' hcvr (fun v hv => hself v (Or.inr hv))
    intro k2 hk2
    have hne : k ≠ k2 := by
      intro he; subst he; rw [hrk] at hk2; exact Bool.noConfusion hk2
    rw [hsame k2 (hasKey_cons_of_tail k va hk2)]
    simp [JFields.findK, hne]

theorem diffV_self_aux : ∀ (n : Nat) (a : JValue), sizeOf a ≤ n →
    a.canonical = true → diffV a a = [] := by
  intro n
  induction n with
  | zero =>
    intro a hle _
    exfalso
    cases a <;> simp at hle
  | succ n ihn =>
    intro a hle ha
    cases a with
    | obj fa =>
      simp only [JValue.canonical] at ha
      have hsz : sizeOf fa ≤ n := by
        simp at hle
        omega
      simp only [diffV]
      rw [diffDel_vanish fa fa (fun _ _ => rfl) (sortedF_of_canonF ha)
        (canonVals_of_canonF ha)
        (fun v hv hc => ihn v (le_trans (Nat.le_of_lt (hasVal_size hv)) hsz) hc)]
      rw [diffAdd_skip fa fa (fun _ h => h)]
      rfl
    | null => simp [diffV, diffLeaf]
    | bool c => simp [diffV, diffLeaf]
    | num m => simp [diffV, diffLeaf]
    | str s => simp [diffV, diffLeaf]

theorem diffV_self (a : JValue) (ha : a.canonical = true) : diffV a a = [] :=
  diffV_self_aux (sizeOf a) a le_rfl ha

theorem pushKey_path (k : String) (op : JOp) : (pushKey k op).path = k :: op.path := by
  cases op <;> rfl

theorem diffDel_mem : ∀ (fa fb : JFields), fa.sortedF = true → fa.canonVals = true →
    ∀ op ∈ diffDel fa fb,
      ∃ k p, op.path = k :: p ∧ fa.hasKey k = true ∧ fa.findK k ≠ fb.findK k := by
  intro fa
  match fa with
  | .fnil => intro fb _ _ op hop; simp [diffDel] at hop
  | .fcons k va r =>
    intro fb hs hcv op hop
    obtain ⟨hgt, hs'⟩ := sortedF_head hs
    obtain ⟨hcva, hcvr⟩ := canonVals_head hcv
    have hrk : r.hasKey k = false := hasKey_head_false_of_sorted hs
    have hlift : ∀ op2, op2 ∈ diffDel r fb →
        ∃ k2 p, op2.path = k2 :: p ∧ (JFields.fcons k va r).hasKey k2 = true ∧
          (JFields.fcons k va r).findK k2 ≠ fb.findK k2 := by
      intro op2 hop2
      obtain ⟨k2, p, hp, hk2, hdiff⟩ := diffDel_mem r fb hs' hcvr op2 hop2
      have hne : k ≠ k2 := by
        intro he; subst he; rw [hrk] at hk2; exact Bool.noConfusion hk2
      refine ⟨k2, p, hp, hasKey_cons_of_tail k va hk2, ?_⟩
      simpa [JFields.findK, hne] using hdiff
    cases hfind : fb.findK k with
    | none =>
      simp only [diffDel, hfind] at hop
      rcases List.mem_cons.mp hop with he | he
      · subst he
        refine ⟨k, [], rfl, hasKey_head k va r, ?_⟩
        rw [findK_head, hfind]
        simp
      · exact hlift op he
    | some vb =>
      simp only [diffDel, hfind] at hop
      rcases List.mem_append.mp hop with he | he
      · rcases List.mem_map.mp he with ⟨op2, hop2, he2⟩
        subst he2
        refine ⟨k, op2.path, pushKey_path k op2, hasKey_head k va r, ?_⟩
        rw [findK_head, hfind]
        intro hcon
        have hv : va = vb := by simpa using hcon
        subst hv
        rw [diffV_self va hcva] at hop2
        simp at hop2
      · exact hlift op he

theorem diffAdd_mem : ∀ (fb' fa : JFields), fb'.sortedF = true →
    ∀ op ∈ diffAdd fa fb',
      ∃ k, op.path = [k] ∧ fa.hasKey k = false ∧ fb'.hasKey k = true := by
  intro fb'
  match fb' with
  | .fnil => intro fa _ op hop; simp [diffAdd] at hop
  | .fcons k vb r =>
    intro fa hs op hop
    obtain ⟨hgt, hs'⟩ := sortedF_head hs
    have hlift : ∀ op2, op2 ∈ diffAdd fa r →
        ∃ k2, op2.path = [k2] ∧ fa.hasKey k2 = false ∧
          (JFields.fcons k vb r).hasKey k2 = true := by
      intro op2 hop2
      obtain ⟨k2, hp, hfa, hfb⟩ := diffAdd_mem r fa hs' op2 hop2
      exact ⟨k2, hp, hfa, hasKey_cons_of_tail k vb hfb⟩
    cases hk : fa.hasKey k with
    | true =>
      simp only [diffAdd, hk, if_true] at hop
      exact hlift op hop
    | false =>
      simp only [diffAdd, hk, Bool.false_eq_true, if_false] at hop
      rcases List.mem_cons.mp hop with he | he
      · subst he
        exact ⟨k, rfl, hk, hasKey_head k vb r⟩
      · exact hlift op he

/-- When two users agree on `id` and `bag`, every operation of their diff
addresses one of the keys `age`, `is_adult`, `name`. -/
theorem diffUsers_heads (a b : User) (hid : a.id = b.id) (hbag : a.bag = b.bag) :
    ∀ op ∈ diffV (serializeUser a) (serializeUser b),
      ∃ k p, op.path = k :: p ∧ (k = "age" ∨ k = "is_adult" ∨ k = "name") := by
  intro op hop
  have hsa : (userFields a).sortedF = true := sortedF_of_canonF (userFields_canonF a)
  have hsb : (userFields b).sortedF = true := sortedF_of_canonF (userFields_canonF b)
  have hidf : (userFields a).findK "id" = (userFields b).findK "id" := by
    rw [findK_userFields_id, findK_userFields_id, hid]
  have hbagf : (userFields a).findK "bag" = (userFields b).findK "bag" := by
    rw [findK_userFields_bag, findK_userFields_bag, hbag]
  simp only [serializeUser, diffV] at hop
  rcases List.mem_append.mp hop with he | he
  · obtain ⟨k, p, hp, hk, hdiff⟩ :=
      diffDel_mem (userFields a) (userFields b) hsa
        (canonVals_of_canonF (userFields_canonF a)) op he
    refine ⟨k, p, hp, ?_⟩
    rcases userFields_keys hk with h | h | h | h | h
    · exact Or.inl h
    · subst h; exact absurd hbagf hdiff
    · subst h; exact absurd hidf hdiff
    · exact Or.inr (Or.inl h)
    · exact Or.inr (Or.inr h)
  · obtain ⟨k, hp, hfa, hfb⟩ := diffAdd_mem (userFields b) (userFields a) hsb op he
    refine ⟨k, [], hp, ?_⟩
    rcases userFields_keys hfb with h | h | h | h | h
    · exact Or.inl h
    · subst h
      exfalso
      have h1 : (userFields a).findK "bag" = none := findK_eq_none_of_not_hasKey hfa
      obtain ⟨v, hv⟩ := findK_of_hasKey hfb
      rw [hbagf, hv] at h1
      cases h1
    · subst h
      exfalso
      have h1 : (userFields a).findK "id" = none := findK_eq_none_of_not_hasKey hfa
      obtain ⟨v, hv⟩ := findK_of_hasKey hfb
      rw [hidf, hv] at h1
      cases h1
    · exact Or.inr (Or.inl h)
    · exact Or.inr (Or.inr h)

theorem goodKey_slice (k : String) (p : List String)
    (hk : k = "age" ∨ k = "is_adult" ∨ k = "name") :
    ∃ seg, goSlice (pathToChars (k :: p)) 1 4 = some seg ∧ seg ≠ bagSeg := by
  rcases hk with h | h | h <;> subst h
  · have hd : ("age" : String).data = ['a', 'g', 'e'] := rfl
    refine ⟨['a', 'g', 'e'], ?_, by decide⟩
    simp only [pathToChars, hd, List.cons_append, List.nil_append]
    simp [goSlice, List.take]
  · have hd : ("is_adult" : String).data
        = ['i', 's', '_', 'a', 'd', 'u', 'l', 't'] := rfl
    refine ⟨['i', 's', '_'], ?_, by decide⟩
    simp only [pathToChars, hd, List.cons_append, List.nil_append]
    simp [goSlice, List.take]
  · have hd : ("name" : String).data = ['n', 'a', 'm', 'e'] := rfl
    refine ⟨['n', 'a', 'm'], ?_, by decide⟩
    simp only [pathToChars, hd, List.cons_append, List.nil_append]
    simp [goSlice, List.take]

/-- Sanitization is the identity on a diff between two users that agree on
`id` and on the excluded `bag` field. -/
theorem sanitize_diff_users (a b : User) (hid : a.id = b.id) (hbag : a.bag = b.bag) :
    skipAndConvert (diffV (serializeUser a) (serializeUser b))
      = .ok (diffV (serializeUser a) (serializeUser b)) := by
  apply skipAndConvert_id
  intro op hop
  obtain ⟨k, p, hpath, hk⟩ := diffUsers_heads a b hid hbag op hop
  rw [hpath]
  exact goodKey_slice k p hk

/-! ## Inverse reconstruction over a two-event chain -/

/-- One application of `patch` in the inverse direction: a stored rollback
patch between two users that agree on `id` and `bag` survives sanitization
and undoes the mutation (round-trip law). -/
theorem patch_rollback_step (e : Event) (a b : User)
    (hrb : e.rollback = diffV (serializeUser a) (serializeUser b))
    (hid : a.id = b.id) (hbag : a.bag = b.bag) :
    patch e RollbackType (serializeUser a) = .ok (serializeUser b) := by
  have h1 : getRequiredPatch e RollbackType = .ok e.rollback := by
    simp [getRequiredPatch]
  simp only [patch, h1, convertToPatch, hrb, sanitize_diff_users a b hid hbag,
    applyPatch, diffV_roundtrip _ _ (serializeUser_canonical a) (serializeUser_canonical b)]

/-- The event appended for a mutation from `oldU` to `newU` as the `n`-th
event at clock `t`. -/
def mkEv (n : Int) (t : Nat) (oldU newU : User) : Event :=
  ⟨n, t, "admin", "some_user", "user_update",
    diffV (serializeUser newU) (serializeUser oldU),
    diffV (serializeUser oldU) (serializeUser newU)⟩

/-- The state after storing `A` at its id and updating the entity first to
`B` (event 1) and then to `C` (event 2). -/
def twoUpdates (A B C : User) (t0 : Nat) : ServerState :=
  updateUser C (updateUser B ⟨[(A.id, A)], [], t0⟩)

theorem twoUpdates_eq (A B C : User) (t0 : Nat) (hAB : A.id = B.id)
    (hBC : B.id = C.id) :
    twoUpdates A B C t0
      = ⟨[(A.id, C)], [mkEv 1 t0 A B, mkEv 2 t0 B C], t0⟩ := by
  have hAC : A.id = C.id := hAB.trans hBC
  have hs1 : updateUser B ⟨[(A.id, A)], [], t0⟩
      = ⟨[(A.id, B)], [mkEv 1 t0 A B], t0⟩ := by
    unfold updateUser addEvent extractDiffs createPatch mkEv
    simp [lookupU, insertU, ← hAB]
  unfold twoUpdates
  rw [hs1]
  unfold updateUser addEvent extractDiffs createPatch mkEv
  simp [lookupU, insertU, hAB, ← hBC, ← hAC]

/-- C1 (amended): for an entity with initial state `A` mutated to `B`
(event 1) and then to `C` (event 2), where the mutations keep the entity id
and the excluded `bag` field unchanged, inverse reconstruction with
`eventId = 1` applied to the current entity `C` yields `B` (the chain starts
after, not at, `eventId`), `eventId = 0` yields `A`, and `eventId = 2` fails
with the not-found error. -/
theorem reconstruct_inverse_chain_amended (A B C : User) (t0 : Nat)
    (hAB : A.id = B.id) (hBC : B.id = C.id)
    (bAB : A.bag = B.bag) (bBC : B.bag = C.bag) :
    getPatched RollbackType 1 A.id (twoUpdates A B C t0) = .ok B ∧
    getPatched RollbackType 0 A.id (twoUpdates A B C t0) = .ok A ∧
    getPatched RollbackType 2 A.id (twoUpdates A B C t0)
      = .err "event with this id not exist" := by
  rw [twoUpdates_eq A B C t0 hAB hBC]
  have hgu : getUser A.id ⟨[(A.id, C)], [mkEv 1 t0 A B, mkEv 2 t0 B C], t0⟩
      = .ok C := by
    simp [getUser, lookupU]
  have hp2 : patch (mkEv 2 t0 B C) RollbackType (serializeUser C)
      = .ok (serializeUser B) :=
    patch_rollback_step _ C B rfl hBC.symm bBC.symm
  have hp1 : patch (mkEv 1 t0 A B) RollbackType (serializeUser B)
      = .ok (serializeUser A) :=
    patch_rollback_step _ B A rfl hAB.symm bAB.symm
  refine ⟨?_, ?_, ?_⟩
  · have hge : getEvents 1 [mkEv 1 t0 A B, mkEv 2 t0 B C] = .ok [mkEv 2 t0 B C] := by
      simp [getEvents]
    have hrd : runDown RollbackType [mkEv 2 t0 B C] (serializeUser C)
        [mkEv 2 t0 B C].length none = .ok (some (serializeUser B)) := by
      simp [runDown, hp2]
    simp only [getPatched, hgu, hge, hrd, unmarshalUser_serialize]
  · have hge : getEvents 0 [mkEv 1 t0 A B, mkEv 2 t0 B C]
        = .ok [mkEv 1 t0 A B, mkEv 2 t0 B C] := by
      simp [getEvents]
    have hrd : runDown RollbackType [mkEv 1 t0 A B, mkEv 2 t0 B C]
        (serializeUser C) [mkEv 1 t0 A B, mkEv 2 t0 B C].length none
        = .ok (some (serializeUser A)) := by
      simp [runDown, hp2, hp1]
    simp only [getPatched, hgu, hge, hrd, unmarshalUser_serialize]
  · have hge : getEvents 2 [mkEv 1 t0 A B, mkEv 2 t0 B C]
        = .err "event with this id not exist" := by
      simp [getEvents]
    simp only [getPatched, hgu, hge]

/-! ## Claim theorems, witnesses and counterexamples -/

theorem runAdds_length : ∀ (reqs : List AddReq) (s : ServerState),
    (runAdds reqs s).events.length = s.events.length + reqs.length := by
  intro reqs
  match reqs with
  | [] => intro s; simp [runAdds]
  | r :: rest =>
    intro s
    simp only [runAdds, List.length_cons]
    rw [runAdds_length rest _, addEvent_length]
    omega

theorem lookupU_insertU_self : ∀ (l : List (Int × User)) (id : Int) (u : User),
    lookupU (insertU l id u) id = some u := by
  intro l
  match l with
  | [] => intro id u; simp [insertU, lookupU]
  | (k, w) :: r =>
    intro id u
    by_cases he : k = id
    · simp [insertU, lookupU, he]
    · simp [insertU, lookupU, he, lookupU_insertU_self r id u]

def exE0 : User := ⟨1, "John", 16, none, false⟩

def exE1 : User := ⟨1, "John", 17, none, false⟩

def exE2 : User := ⟨1, "John", 18, none, false⟩

def exB1 : User := ⟨1, "John", 16, some ⟨"iPhone", "Big tasty", "Beretta"⟩, false⟩

def exNew : User := ⟨7, "Ann", 30, none, true⟩

def exReq : AddReq := ⟨"admin", "subj", "act", JValue.null, JValue.null⟩

/-- C1 counterexample: on the spec's own scenario (ages 16 → 17 → 18),
inverse reconstruction with `eventId = 1` returns the state *after* event 1
(age 17), not the initial state `E0` (age 16) the claim demands, and
`eventId = 2` fails instead of returning `E1`. -/
theorem reconstruct_inverse_claim_false :
    getPatched RollbackType 1 1 (twoUpdates exE0 exE1 exE2 0) = .ok exE1 ∧
    exE1 ≠ exE0 ∧
    getPatched RollbackType 2 1 (twoUpdates exE0 exE1 exE2 0)
      = .err "event with this id not exist" := by
  decide

/-- C1 witness: the amended theorem at the concrete scenario. -/
theorem reconstruct_inverse_chain_amended_witness :
    getPatched RollbackType 1 exE0.id (twoUpdates exE0 exE1 exE2 0) = .ok exE1 ∧
    getPatched RollbackType 0 exE0.id (twoUpdates exE0 exE1 exE2 0) = .ok exE0 ∧
    getPatched RollbackType 2 exE0.id (twoUpdates exE0 exE1 exE2 0)
      = .err "event with this id not exist" :=
  reconstruct_inverse_chain_amended exE0 exE1 exE2 0 rfl rfl rfl rfl

/-- C2 (amended): `rangeFrom(id)` returns exactly the events with identifier
`≥ id + 1` (equivalently `> id`), in ascending identifier order, with length
`count − id`; it fails with the not-found error exactly when `id ≥ count`
(so `id = count` already fails, and on an empty log every `id ≥ 0` fails);
a negative `id` is a runtime panic (out-of-range slice). -/
theorem getEvents_range_spec (reqs : List AddReq) (t0 : Nat) (id : Int) :
    getEvents id (runAdds reqs (mkInit t0)).events
      = (if id < 0 then GoR.panics
         else if id < ((runAdds reqs (mkInit t0)).events.length : Int) then
           GoR.ok ((runAdds reqs (mkInit t0)).events.drop id.toNat)
         else GoR.err "event with this id not exist")
  ∧ ((runAdds reqs (mkInit t0)).events.drop id.toNat).map (fun e => e.id)
      = (List.range ((runAdds reqs (mkInit t0)).events.length - id.toNat)).map
          (fun j => ((id.toNat + j : Nat) : Int) + 1) := by
  have hn : (0 : Int) ≤ ((runAdds reqs (mkInit t0)).events.length : Int) :=
    Int.natCast_nonneg _
  constructor
  · unfold getEvents
    by_cases h0 : id < 0
    · rw [if_pos h0, if_pos (by omega), if_neg (by omega)]
    · rw [if_neg h0]
      by_cases h1 : id < ((runAdds reqs (mkInit t0)).events.length : Int)
      · rw [if_pos h1, if_pos (by omega), if_pos (by omega)]
      · rw [if_neg h1, if_neg (by omega)]
  · have hids := runAdds_ids reqs (mkInit t0)
    have he : (mkInit t0).events = [] := rfl
    rw [he] at hids
    simp only [List.map_nil, List.nil_append, List.length_nil] at hids
    rw [List.map_drop, hids, idsFrom_drop, runAdds_length, he]
    simp only [List.length_nil, Nat.zero_add, idsFrom]

/-- C2 counterexample: with one stored event (`count = 1`), the claim says
`rangeFrom(1)` succeeds and returns the event with identifier 1; the code
fails with the not-found error. -/
theorem getEvents_boundary_claim_false :
    (runAdds [exReq] (mkInit 0)).events.length = 1 ∧
    getEvents 1 (runAdds [exReq] (mkInit 0)).events
      = .err "event with this id not exist" := by
  decide

/-- C3 (amended): for `direction = forward` the engine processes the chain
most-recent → least-recent, applying each event's `forwardPatch`, starting
the fold from the serialized *current* entity — the same traversal as
inverse reconstruction, not the forward-from-snapshot procedure of the
claim: `getPatched UpdateType` coincides with `amendedForwardReconstruct`
on every input. -/
theorem getPatched_update_amended (eventID entityID : Int) (s : ServerState) :
    getPatched UpdateType eventID entityID s
      = amendedForwardReconstruct eventID entityID s := by
  unfold getPatched amendedForwardReconstruct
  cases getUser entityID s with
  | err m => rfl
  | panics => rfl
  | ok u =>
    cases getEvents eventID s.events with
    | err m => rfl
    | panics => rfl
    | ok chain =>
      cases chain with
      | nil => simp [runDown]
      | cons e rest =>
        dsimp only
        rw [runDown_full (e :: rest) UpdateType (serializeUser u) (by simp)]
        cases foldEvents UpdateType (e :: rest).reverse (serializeUser u) with
        | ok v => simp [liftSome]
        | err m => simp [liftSome]
        | panics => simp [liftSome]

/-- C3 counterexample: on the scenario ages 16 → 17 → 18 with `eventId = 0`
(whole chain), the code's forward reconstruction returns age 17 (`E1`),
while the claimed procedure — forward order from the snapshot as of
`eventId` — returns age 18 (`E2`). -/
theorem forward_direction_claim_false :
    getPatched UpdateType 0 1 (twoUpdates exE0 exE1 exE2 0) = .ok exE1 ∧
    specForwardReconstruct exE0 (twoUpdates exE0 exE1 exE2 0).events = .ok exE2 ∧
    exE1 ≠ exE2 := by
  decide

/-- C4: round-trip law of the diff engine and patch application — the
forward patch of `extractDiffs(A, B)` maps serialized `A` to serialized `B`,
and the inverse patch maps serialized `B` back to serialized `A`, for all
canonical (serializable) JSON values. -/
theorem extractDiffs_roundtrip (a b : JValue) (ha : a.canonical = true)
    (hb : b.canonical = true) :
    applyOps (extractDiffs a b).2 a = some b ∧
    applyOps (extractDiffs a b).1 b = some a :=
  ⟨diffV_roundtrip a b ha hb, diffV_roundtrip b a hb ha⟩

def exA : JValue := .obj (.fcons "x" (.num 1) .fnil)

def exB : JValue := .obj (.fcons "x" (.num 2) (.fcons "y" (.num 3) .fnil))

/-- C4 witness: the round-trip law evaluated at two concrete objects. -/
theorem extractDiffs_roundtrip_witness :
    applyOps (extractDiffs exA exB).2 exA = some exB ∧
    applyOps (extractDiffs exA exB).1 exB = some exA :=
  extractDiffs_roundtrip exA exB (by decide) (by decide)

/-- C5 counterexample: updating the excluded `bag` field stores an event
whose forward patch targets `/bag/phone` — the stored patch is not
sanitized (and the stored path does match the sanitizer's exclusion
check). -/
theorem stored_patch_contains_excluded :
    ((updateUser exB1 (mkInit 0)).events.map (fun e => e.update))
      = [[JOp.replace ["bag", "phone"] (.str "iPhone")]] ∧
    goSlice (pathToChars [("bag" : String), "phone"]) 1 4 = some bagSeg := by
  decide

/-- C5 witness: a patch touching `/bag` and `/age` is filtered to the `/age`
operation alone, and that surviving operation does not match the
exclusion. -/
theorem skipAndConvert_removes_excluded_witness :
    goSlice (pathToChars (JOp.replace ["age"] (.num 17)).path) 1 4 ≠ some bagSeg :=
  skipAndConvert_removes_excluded
    [JOp.replace ["bag"] (.num 1), JOp.replace ["age"] (.num 17)]
    [JOp.replace ["age"] (.num 17)] (by decide) _ (by decide)

/-- C6: the sanitizer is a byte-substring check, not a segment-prefix
match — an operation at `/baggage`, which is *not* under `/bag`, is removed
because bytes 1–3 of its path are `bag`. -/
theorem sanitizer_substring_overreach :
    skipAndConvert [JOp.replace ["baggage"] (.num 1)] = .ok [] := by
  decide

/-- C7: identifiers assigned by successive appends starting from the empty
log are `1, 2, 3, …` — the `j`-th appended event (0-based) gets id `j + 1`,
with no gaps and no repeats. -/
theorem addEvent_ids_sequential (reqs : List AddReq) (t0 : Nat) :
    ((runAdds reqs (mkInit t0)).events).map (fun e => e.id)
      = (List.range reqs.length).map (fun (j : Nat) => (j : Int) + 1) := by
  rw [runAdds_ids]
  have he : (mkInit t0).events = [] := rfl
  rw [he]
  simp only [List.map_nil, List.nil_append, List.length_nil, idsFrom]
  apply List.map_congr_left
  intro j _
  omega

/-- C8: `createdAt` never decreases across appends — the stored timestamps
are pairwise monotone for every sequence of appends and every start
instant. -/
theorem addEvent_createdAt_monotone (reqs : List AddReq) (t0 : Nat) :
    ((runAdds reqs (mkInit t0)).events).Pairwise
      (fun a b => a.createdAt ≤ b.createdAt) :=
  (timesOk_runAdds reqs (mkInit t0)
    ⟨fun e he => by simp [mkInit] at he, by simp [mkInit]⟩).2

/-- C9: the exclusion check slices `op.Path[1:4]`; on a path shorter than 4
bytes (for example `/id`, produced whenever the `id` field changes) the Go
string slice is out of range and the program panics instead of returning a
filtered patch or an error. -/
theorem sanitizer_short_path_panics :
    skipAndConvert [JOp.replace ["id"] (.num 2)] = .panics := by
  decide

/-- C10: updating an entity whose identifier is absent from the store does
not fail — the new entity is stored under its identifier and an event is
appended whose forward and inverse patches are computed between the
serialized `null` previous state and the new entity. -/
theorem updateUser_absent_entity (s : ServerState) (u : User)
    (h : lookupU s.users u.id = none) :
    lookupU (updateUser u s).users u.id = some u ∧
    (updateUser u s).events = s.events
      ++ [⟨(s.events.length : Int) + 1,
          (if s.events.length > 5 then s.global + 86400 else s.global),
          "admin", "some_user", "user_update",
          diffV (serializeUser u) JValue.null,
          diffV JValue.null (serializeUser u)⟩] := by
  constructor
  · simp [updateUser, addEvent, lookupU_insertU_self]
  · simp [updateUser, h, addEvent, extractDiffs, createPatch]

/-- C10 witness: updating the absent id 7 in the startup state. -/
theorem updateUser_absent_entity_witness :
    lookupU (updateUser exNew (mkInit 0)).users exNew.id = some exNew ∧
    (updateUser exNew (mkInit 0)).events = (mkInit 0).events
      ++ [⟨((mkInit 0).events.length : Int) + 1,
          (if (mkInit 0).events.length > 5 then (mkInit 0).global + 86400
           else (mkInit 0).global),
          "admin", "some_user", "user_update",
          diffV (serializeUser exNew) JValue.null,
          diffV JValue.null (serializeUser exNew)⟩] :=
  updateUser_absent_entity (mkInit 0) exNew (by decide)

end DT
